import Mathlib

/-!
Verification of the parallel prime-number search program (PrimeFinder).

The definitions below are a shallow embedding of the C++ sources
(`PrimeFinder.cpp`, `PrimeFinder.h`, `SimpleJSON.h`).  C++ `int` values are
modelled as `Int` (no arithmetic in the verified claims overflows 32 bits;
the configured bound is at most `2^30`).  C++ loops are modelled as
structurally recursive functions carrying an explicit fuel argument that is
always at least the number of iterations the C++ loop performs; the real
loop guard (`i <= limit`, `i < num_threads`, ...) is kept verbatim, and the
fuel at every call site provably never runs out.  `static_cast<int>(std::sqrt(n))`
is modelled as the integer square root `intSqrt` (exact for all 32-bit
inputs, since IEEE double sqrt is correctly rounded and the gap to the next
integer exceeds one ulp in this range); `intSqrt` is proved equal to
`Nat.sqrt`.  Thread interleavings of the helper threads are modelled by
sequentialising the mutations of the shared composite flag (each helper only
ever writes `true`, so every interleaving produces the same final flag).
-/

/-- Linear-scan helper for the integer square root: greatest `j ≤ k` with
`j * j ≤ n` (and `0` when there is none, as `0 * 0 ≤ n` always holds). -/
def sqrtAux (n : Nat) : Nat → Nat
  | 0 => 0
  | k + 1 => if (k + 1) * (k + 1) ≤ n then k + 1 else sqrtAux n k

/-- Model of `static_cast<int>(std::sqrt(n))` for nonnegative `n`:
the floor of the real square root. -/
def intSqrt (n : Nat) : Nat := sqrtAux n n

/-- Model of the trial-division loop of `PrimeFinder::isPrime`:
`for (int i = 3; i <= limit; i += 2) if (n % i == 0) return false;`.
`fuel` only bounds the recursion; the loop guard `i ≤ limit` is verbatim. -/
def trialDiv (n : Int) (limit i : Nat) : Nat → Bool
  | 0 => true
  | fuel + 1 =>
    if i ≤ limit then
      if n % (i : Int) == 0 then false
      else trialDiv n limit (i + 2) fuel
    else true

/-- Model of `PrimeFinder::isPrime` (sequential oracle, PrimeFinder.cpp
lines 70-80). -/
def isPrime (n : Int) : Bool :=
  if n < 2 then false
  else if n = 2 then true
  else if n % 2 == 0 then false
  else
    trialDiv n (intSqrt n.toNat) 3 (intSqrt n.toNat + 1)

/-- Model of the divisor-list generation loop of `PrimeFinder::isPrimeParallel`:
`for (int i = 3; i <= sqrtN; i += 2) divisors.push_back(i);`. -/
def oddFrom (limit i : Nat) : Nat → List Nat
  | 0 => []
  | fuel + 1 =>
    if i ≤ limit then i :: oddFrom limit (i + 2) fuel
    else []

/-- The candidate odd divisors `3, 5, ...` up to `limit`, exactly the
`divisors` vector built by `PrimeFinder::isPrimeParallel`. -/
def divisorList (limit : Nat) : List Nat := oddFrom limit 3 (limit + 1)

/-- Model of `PrimeFinder::checkDivisibility` (PrimeFinder.cpp lines 123-132)
as a transformer of the shared `isComposite` flag: scan the chunk and on the
first divisor found set the flag to `true` and return; otherwise leave the
flag untouched. -/
def checkDivisibility (number : Int) (divisors : List Nat) (flag : Bool) : Bool :=
  match divisors with
  | [] => flag
  | d :: rest =>
    if number % (d : Int) == 0 then true
    else checkDivisibility number rest flag

/-- Model of the chunk-construction loop of `PrimeFinder::isPrimeParallel`
(lines 156-167): for `i = 0, ..., W-1`, `startIdx = i * cs`,
`endIdx = (i == W-1) ? l.length : startIdx + cs`, breaking out of the loop as
soon as `startIdx ≥ l.length`.  Invoked with `fuel = W`. -/
def buildChunks (l : List Nat) (cs W i : Nat) : Nat → List (List Nat)
  | 0 => []
  | fuel + 1 =>
    if i < W then
      if i * cs < l.length then
        (l.drop (i * cs)).take ((if i = W - 1 then l.length else i * cs + cs) - i * cs)
          :: buildChunks l cs W (i + 1) fuel
      else []
    else []

/-- Model of `PrimeFinder::isPrimeParallel` (lines 136-175) for
`num_threads = W`.  The helper threads are sequentialised: the final value
of the shared composite flag is the fold of `checkDivisibility` over the
chunks, starting from `false` (every interleaving yields this value, as each
helper only ever writes `true`). -/
def isPrimeParallel (W : Nat) (number : Int) : Bool :=
  if number < 2 then false
  else if number = 2 then true
  else if number % 2 == 0 then false
  else
    let divisors := divisorList (intSqrt number.toNat)
    if divisors.isEmpty then true
    else
      let chunkSize := max 1 (divisors.length / W)
      let chunks := buildChunks divisors chunkSize W 0 W
      !(chunks.foldl (fun flag chunk => checkDivisibility number chunk flag) false)

/-! ## Work partitioning and the range-split run (PrimeFinder::run, lines 296-367) -/

/-- The inclusive integer interval `[s, e]` as a list (`for num = s; num <= e; num++`);
empty when `e < s`. -/
def rangeList (s e : Nat) : List Nat := List.range' s (e + 1 - s)

/-- Start of worker `i`'s sub-range: `i * rangeSize + 1`. -/
def partStart (size i : Nat) : Nat := i * size + 1

/-- End of worker `i`'s sub-range: `(i + 1) * rangeSize`, or `max_number`
for the last worker. -/
def partEnd (N W size i : Nat) : Nat := if i = W - 1 then N else (i + 1) * size

/-- The sub-ranges dispatched by `PrimeFinder::run` under the range scheme,
one `(start, end)` pair per worker index `i ∈ [0, W)`, with
`rangeSize = N / W` (integer division). -/
def subRanges (N W : Nat) : List (Nat × Nat) :=
  (List.range W).map (fun i => (partStart (N / W) i, partEnd N W (N / W) i))

/-- Model of `PrimeFinder::searchRange`: the primes one worker collects over
its sub-range `[s, e]` using the sequential oracle. -/
def searchRange (s e : Nat) : List Nat :=
  (rangeList s e).filter (fun n => isPrime (n : Int))

/-- The contents of the shared `primes` vector after the join barrier,
modelled as the concatenation of the per-worker results in worker order
(every interleaving of the lock-guarded appends is a permutation of this). -/
def collectedPrimes (N W : Nat) : List Nat :=
  ((subRanges N W).map (fun r => searchRange r.1 r.2)).flatten

/-- The `primes` vector after `std::sort(primes.begin(), primes.end())`. -/
def sortedPrimes (N W : Nat) : List Nat :=
  (collectedPrimes N W).insertionSort (· ≤ ·)

/-- All integers of all sub-ranges, in dispatch order (used to state the
partition claim). -/
def subRangeElems (N W : Nat) : List Nat :=
  ((subRanges N W).map (fun r => rangeList r.1 r.2)).flatten

/-! ## Console output model -/

/-- One line of per-prime console output.  `immediate` stands for the
timestamped `[Thread-<id>] [<HH:MM:SS.mmm>] Found prime: <n>` line (the
wall-clock timestamp is I/O outside the model); `deferredPrime` stands for
the `Prime: <n>` line of wait mode. -/
inductive OutLine where
  | immediate (threadId : Nat) (n : Nat)
  | deferredPrime (n : Nat)

/-- Equality of output lines is decidable (written with nested
single-scrutinee matches). -/
def OutLine.decEq : (a b : OutLine) → Decidable (a = b) := fun a b =>
  match a with
  | .immediate t1 n1 =>
    match b with
    | .immediate t2 n2 =>
      if h : t1 = t2 ∧ n1 = n2 then isTrue (by rw [h.1, h.2])
      else isFalse (fun he => h (by injection he with e1 e2; exact ⟨e1, e2⟩))
    | .deferredPrime _ => isFalse (fun he => OutLine.noConfusion he)
  | .deferredPrime n1 =>
    match b with
    | .immediate _ _ => isFalse (fun he => OutLine.noConfusion he)
    | .deferredPrime n2 =>
      if h : n1 = n2 then isTrue (by rw [h])
      else isFalse (fun he => h (by injection he))

instance : DecidableEq OutLine := OutLine.decEq

/-- Rendering of a wait-mode line: `std::cout << "Prime: " << prime`. -/
def renderDeferredLine (n : Nat) : String := "Prime: " ++ toString n

/-- Per-prime lines one worker emits during the parallel phase
(`PrimeFinder::searchRange`): one immediate line per prime found when
`print_mode == "immediate"`, nothing otherwise. -/
def searchRangeLines (mode : String) (threadId s e : Nat) : List OutLine :=
  if mode == "immediate" then (searchRange s e).map (OutLine.immediate threadId)
  else []

/-- Lines emitted after the join barrier (`run`, lines 340-350): in wait
mode, one `Prime: <n>` line per element of the sorted `primes` vector. -/
def deferredLines (mode : String) (N W : Nat) : List OutLine :=
  if mode == "wait" then (sortedPrimes N W).map OutLine.deferredPrime
  else []

/-- The summary block printed at the end of `PrimeFinder::run`
(lines 353-367): total count, the first `min(20, size)` primes of the sorted
vector comma-joined, and a `...` marker when more than 20 primes exist. -/
structure Summary where
  count : Nat
  shown : List Nat
  shownText : String
  ellipsis : Bool

/-- Build the summary from the shared `primes` vector (in whatever order the
parallel phase left it): `primes.size()`, then sort and display the first
`min(20, primes.size())` entries, then `if (primes.size() > 20) "..."`. -/
def summaryOf (primes : List Nat) : Summary :=
  let sorted := primes.insertionSort (· ≤ ·)
  let displayCount := min 20 sorted.length
  { count := primes.length
    shown := sorted.take displayCount
    shownText := String.intercalate ", " ((sorted.take displayCount).map toString)
    ellipsis := decide (primes.length > 20) }

/-- Everything `PrimeFinder::run` sends to the console that the claims talk
about: the parallel-phase per-prime lines (in per-worker program order), the
post-join per-prime lines, and the summary block. -/
structure RunOutput where
  phase1 : List OutLine
  phase2 : List OutLine
  summary : Summary

/-- The observable output of one full run of `PrimeFinder::run` under the
range scheme with upper bound `N` and `num_threads = W ≥ 1`. -/
def runModel (mode : String) (N W : Nat) : RunOutput :=
  { phase1 := ((List.range W).map (fun i =>
      searchRangeLines mode (i + 1) (partStart (N / W) i) (partEnd N W (N / W) i))).flatten
    phase2 := deferredLines mode N W
    summary := summaryOf (collectedPrimes N W) }

/-! ## The dispatch loop on C++ int values (for invalid configurations) -/

/-- Model of the dispatch loop of `PrimeFinder::run` on raw C++ `int` values,
exactly as written: `rangeSize = max_number / num_threads` (C++ division
truncates toward zero, `Int.tdiv`), and the loop `for (i = 0; i < num_threads; i++)`
launches one worker per iteration — which is no iteration at all whenever
`num_threads ≤ 0`.  There is no validity check anywhere on this path.
(For `num_threads = 0` the C++ division is undefined behaviour; this model
is only evaluated at negative `num_threads`.) -/
def dispatchRanges (maxNumber numThreads : Int) : List (Int × Int) :=
  let rangeSize := maxNumber.tdiv numThreads
  (List.range numThreads.toNat).map (fun i =>
    ((i : Int) * rangeSize + 1,
     if (i : Int) = numThreads - 1 then maxNumber else ((i : Int) + 1) * rangeSize))

/-! ## The integer square root model agrees with `Nat.sqrt` -/

theorem sqrtAux_mul_le (n : Nat) : ∀ k, sqrtAux n k * sqrtAux n k ≤ n := by
  intro k
  induction k with
  | zero => simp [sqrtAux]
  | succ k ih =>
    simp only [sqrtAux]
    by_cases h : (k + 1) * (k + 1) ≤ n
    · rwa [if_pos h]
    · rwa [if_neg h]

theorem le_sqrtAux (n : Nat) : ∀ k j, j ≤ k → j * j ≤ n → j ≤ sqrtAux n k := by
  intro k
  induction k with
  | zero => intro j hj _; simpa [sqrtAux] using hj
  | succ k ih =>
    intro j hj hjj
    simp only [sqrtAux]
    by_cases h : (k + 1) * (k + 1) ≤ n
    · rwa [if_pos h]
    · rw [if_neg h]
      refine ih j ?_ hjj
      rcases Nat.lt_or_ge j (k + 1) with h' | h'
      · omega
      · exact absurd (Nat.le_trans (Nat.mul_le_mul h' h') hjj) h

theorem intSqrt_eq_sqrt (n : Nat) : intSqrt n = Nat.sqrt n := by
  refine Nat.le_antisymm ?_ ?_
  · exact Nat.le_sqrt.mpr (sqrtAux_mul_le n n)
  · refine le_sqrtAux n n (Nat.sqrt n) (Nat.sqrt_le_self n) ?_
    have := Nat.sqrt_le' n
    nlinarith [this]

/-! ## The candidate-divisor list and the trial-division loop -/

theorem mem_oddFrom (limit m : Nat) :
    ∀ (fuel i : Nat), limit < i + 2 * fuel →
      (m ∈ oddFrom limit i fuel ↔ ∃ k, m = i + 2 * k ∧ m ≤ limit) := by
  intro fuel
  induction fuel with
  | zero =>
    intro i h
    simp only [oddFrom, List.not_mem_nil, false_iff]
    rintro ⟨k, rfl, hle⟩
    omega
  | succ fuel ih =>
    intro i h
    simp only [oddFrom]
    by_cases hi : i ≤ limit
    · rw [if_pos hi, List.mem_cons, ih (i + 2) (by omega)]
      constructor
      · rintro (rfl | ⟨k, rfl, hk⟩)
        · exact ⟨0, by omega, hi⟩
        · exact ⟨k + 1, by omega, hk⟩
      · rintro ⟨k, rfl, hk⟩
        cases k with
        | zero => exact Or.inl (by omega)
        | succ k => exact Or.inr ⟨k, by omega, hk⟩
    · rw [if_neg hi]
      simp only [List.not_mem_nil, false_iff]
      rintro ⟨k, rfl, hle⟩
      omega

theorem mem_oddFrom_lower (limit : Nat) :
    ∀ (fuel i m : Nat), m ∈ oddFrom limit i fuel → i ≤ m := by
  intro fuel
  induction fuel with
  | zero => intro i m h; simp [oddFrom] at h
  | succ fuel ih =>
    intro i m h
    simp only [oddFrom] at h
    by_cases hi : i ≤ limit
    · rw [if_pos hi, List.mem_cons] at h
      rcases h with rfl | h
      · exact Nat.le_refl m
      · exact Nat.le_trans (by omega) (ih (i + 2) m h)
    · rw [if_neg hi] at h
      simp at h

theorem oddFrom_nodup (limit : Nat) : ∀ (fuel i : Nat), (oddFrom limit i fuel).Nodup := by
  intro fuel
  induction fuel with
  | zero => intro i; simp [oddFrom]
  | succ fuel ih =>
    intro i
    simp only [oddFrom]
    by_cases hi : i ≤ limit
    · rw [if_pos hi]
      refine List.nodup_cons.mpr ⟨fun hmem => ?_, ih (i + 2)⟩
      have := mem_oddFrom_lower limit fuel (i + 2) i hmem
      omega
    · rw [if_neg hi]; simp

theorem mem_divisorList (limit m : Nat) :
    m ∈ divisorList limit ↔ 3 ≤ m ∧ m ≤ limit ∧ m % 2 = 1 := by
  unfold divisorList
  rw [mem_oddFrom limit m (limit + 1) 3 (by omega)]
  constructor
  · rintro ⟨k, rfl, hk⟩
    exact ⟨by omega, hk, by omega⟩
  · rintro ⟨h3, hle, hodd⟩
    exact ⟨(m - 3) / 2, by omega, hle⟩

theorem divisorList_nodup (limit : Nat) : (divisorList limit).Nodup :=
  oddFrom_nodup limit (limit + 1) 3

theorem trialDiv_eq_not_any (n : Int) (limit : Nat) :
    ∀ (fuel i : Nat), limit < i + 2 * fuel →
      trialDiv n limit i fuel
        = !((oddFrom limit i fuel).any (fun d => n % (d : Int) == 0)) := by
  intro fuel
  induction fuel with
  | zero => intro i h; simp [trialDiv, oddFrom]
  | succ fuel ih =>
    intro i h
    simp only [trialDiv, oddFrom]
    by_cases hi : i ≤ limit
    · rw [if_pos hi, if_pos hi]
      cases hd : (n % (i : Int) == 0) with
      | true => simp [hd]
      | false =>
        rw [if_neg (by simp [hd])]
        rw [ih (i + 2) (by omega)]
        simp [hd]
    · rw [if_neg hi, if_neg hi]
      simp

theorem isPrime_eq_not_any (n : Int) (h2 : ¬ n < 2) (hne : n ≠ 2) (hodd : ¬ (n % 2 == 0) = true) :
    isPrime n = !((divisorList (intSqrt n.toNat)).any (fun d => n % (d : Int) == 0)) := by
  unfold isPrime divisorList
  rw [if_neg h2, if_neg hne, if_neg hodd]
  exact trialDiv_eq_not_any n (intSqrt n.toNat) (intSqrt n.toNat + 1) 3 (by omega)

/-! ## The composite flag and the chunking of the divisor list -/

theorem checkDivisibility_eq (n : Int) :
    ∀ (ds : List Nat) (b : Bool),
      checkDivisibility n ds b = (b || ds.any (fun d => n % (d : Int) == 0)) := by
  intro ds
  induction ds with
  | nil => intro b; simp [checkDivisibility]
  | cons d rest ih =>
    intro b
    simp only [checkDivisibility, List.any_cons]
    cases hd : (n % (d : Int) == 0) with
    | true => simp [hd]
    | false =>
      rw [if_neg (by simp [hd]), ih]
      simp [hd]

theorem foldl_checkDivisibility (n : Int) :
    ∀ (chs : List (List Nat)) (b : Bool),
      chs.foldl (fun flag chunk => checkDivisibility n chunk flag) b
        = (b || chs.any (fun ch => ch.any (fun d => n % (d : Int) == 0))) := by
  intro chs
  induction chs with
  | nil => intro b; simp
  | cons ch rest ih =>
    intro b
    simp only [List.foldl_cons, List.any_cons]
    rw [ih, checkDivisibility_eq]
    cases b <;> simp [Bool.or_assoc]

theorem buildChunks_eq_nil (l : List Nat) (cs W : Nat) :
    ∀ (fuel i : Nat), W ≤ i → buildChunks l cs W i fuel = [] := by
  intro fuel i h
  cases fuel with
  | zero => rfl
  | succ fuel => simp only [buildChunks]; rw [if_neg (by omega)]

theorem flatten_buildChunks (l : List Nat) (cs W : Nat) :
    ∀ (fuel i : Nat), i < W → W ≤ i + fuel →
      (buildChunks l cs W i fuel).flatten = l.drop (i * cs) := by
  intro fuel
  induction fuel with
  | zero => intro i h1 h2; omega
  | succ fuel ih =>
    intro i h1 h2
    simp only [buildChunks, if_pos h1]
    by_cases hs : i * cs < l.length
    · rw [if_pos hs]
      by_cases hlast : i = W - 1
      · rw [if_pos hlast, buildChunks_eq_nil l cs W fuel (i + 1) (by omega)]
        simp only [List.flatten_cons, List.flatten_nil, List.append_nil]
        rw [show l.length - i * cs = (List.drop (i * cs) l).length from
              (List.length_drop _ _).symm,
            List.take_length]
      · rw [if_neg hlast]
        simp only [List.flatten_cons]
        rw [ih (i + 1) (by omega) (by omega),
            show i * cs + cs - i * cs = cs from by omega,
            show (i + 1) * cs = i * cs + cs from by ring,
            ← List.drop_drop, List.take_append_drop]
    · rw [if_neg hs]
      simp only [List.flatten_nil]
      exact (List.drop_eq_nil_of_le (by omega)).symm

theorem flatten_buildChunks_full (l : List Nat) (cs W : Nat) (hW : 1 ≤ W) :
    (buildChunks l cs W 0 W).flatten = l := by
  have h := flatten_buildChunks l cs W W 0 (by omega) (by omega)
  simpa using h

theorem isPrimeParallel_eq_isPrime (W : Nat) (n : Int) (hW : 1 ≤ W) :
    isPrimeParallel W n = isPrime n := by
  by_cases h1 : n < 2
  · simp [isPrimeParallel, isPrime, h1]
  by_cases h2 : n = 2
  · simp [isPrimeParallel, isPrime, h1, h2]
  by_cases h3 : (n % 2 == 0) = true
  · simp [isPrimeParallel, isPrime, h1, h2, h3]
  have key : isPrimeParallel W n
      = (if (divisorList (intSqrt n.toNat)).isEmpty then true
         else !((buildChunks (divisorList (intSqrt n.toNat))
                  (max 1 ((divisorList (intSqrt n.toNat)).length / W)) W 0 W).foldl
                  (fun flag chunk => checkDivisibility n chunk flag) false)) := by
    unfold isPrimeParallel
    rw [if_neg h1, if_neg h2, if_neg h3]
  rw [key, isPrime_eq_not_any n h1 h2 h3]
  by_cases hemp : (divisorList (intSqrt n.toNat)).isEmpty
  · rw [if_pos hemp, List.isEmpty_iff.mp hemp]
    simp
  · rw [if_neg hemp, foldl_checkDivisibility]
    simp only [Bool.false_or]
    rw [← List.any_flatten,
        flatten_buildChunks_full (divisorList (intSqrt n.toNat)) _ W hW]

/-! ## The partition covers the search interval exactly once -/

theorem rangeList_append (a b c : Nat) (h1 : a ≤ b + 1) (h2 : b ≤ c) :
    rangeList a b ++ rangeList (b + 1) c = rangeList a c := by
  unfold rangeList
  rw [show c + 1 - (b + 1) = c - b from by omega]
  have h := List.range'_append a (b + 1 - a) (c - b) 1
  rw [show a + 1 * (b + 1 - a) = b + 1 from by omega] at h
  rw [h, show c - b + (b + 1 - a) = c + 1 - a from by omega]

theorem flatten_mapRanges_from (N W size : Nat) (hs : (W - 1) * size ≤ N) :
    ∀ (fuel j : Nat), j < W → W ≤ j + fuel →
      ((List.range' j (W - j)).map
          (fun i => rangeList (partStart size i) (partEnd N W size i))).flatten
        = rangeList (j * size + 1) N := by
  intro fuel
  induction fuel with
  | zero => intro j h1 h2; omega
  | succ fuel ih =>
    intro j h1 h2
    by_cases hlast : j = W - 1
    · rw [show W - j = 1 from by omega, List.range'_one]
      simp only [List.map_cons, List.map_nil, List.flatten_cons, List.flatten_nil,
        List.append_nil]
      unfold partStart partEnd
      rw [if_pos hlast]
    · have hj1 : j + 1 < W := by omega
      rw [show W - j = (W - (j + 1)) + 1 from by omega, List.range'_succ]
      simp only [List.map_cons, List.flatten_cons]
      rw [ih (j + 1) hj1 (by omega)]
      unfold partStart partEnd
      rw [if_neg hlast]
      exact rangeList_append (j * size + 1) ((j + 1) * size) N
        (by have := Nat.mul_le_mul_right size (show j ≤ j + 1 from by omega); omega)
        (le_trans (Nat.mul_le_mul_right size (show j + 1 ≤ W - 1 from by omega)) hs)

theorem subRangeElems_eq (N W : Nat) (hW : 1 ≤ W) : subRangeElems N W = rangeList 1 N := by
  have hs : (W - 1) * (N / W) ≤ N :=
    le_trans (Nat.mul_le_mul_right _ (show W - 1 ≤ W from by omega))
      (le_trans (Nat.le_of_eq (Nat.mul_comm W (N / W))) (Nat.div_mul_le_self N W))
  have h := flatten_mapRanges_from N W (N / W) hs W 0 (by omega) (by omega)
  unfold subRangeElems subRanges
  rw [List.range_eq_range', List.map_map]
  simpa [Function.comp] using h

theorem mem_rangeList (s e m : Nat) : m ∈ rangeList s e ↔ s ≤ m ∧ m ≤ e := by
  unfold rangeList
  rw [List.mem_range'_1]
  omega

theorem rangeList_nodup (s e : Nat) : (rangeList s e).Nodup := List.nodup_range' _ _

theorem collectedPrimes_eq (N W : Nat) (hW : 1 ≤ W) :
    collectedPrimes N W = (rangeList 1 N).filter (fun n : Nat => isPrime (n : Int)) := by
  unfold collectedPrimes
  simp only [searchRange]
  rw [show (subRanges N W).map
            (fun r => (rangeList r.1 r.2).filter (fun n : Nat => isPrime (n : Int)))
        = ((subRanges N W).map (fun r => rangeList r.1 r.2)).map
            (List.filter (fun n : Nat => isPrime (n : Int))) from by rw [List.map_map]; rfl]
  rw [← List.filter_flatten,
      show ((subRanges N W).map fun r => rangeList r.1 r.2).flatten = subRangeElems N W from rfl,
      subRangeElems_eq N W hW]

theorem collectedPrimes_nodup (N W : Nat) (hW : 1 ≤ W) : (collectedPrimes N W).Nodup := by
  rw [collectedPrimes_eq N W hW]
  exact (rangeList_nodup 1 N).filter _

/-! ## Characterisation of the sequential oracle -/

theorem isPrime_true_iff_forall (n : Int) :
    isPrime n = true
      ↔ 2 ≤ n ∧ ∀ d : Int, 2 ≤ d → d ≤ (intSqrt n.toNat : Int) → ¬ d ∣ n := by
  by_cases h1 : n < 2
  · simp only [isPrime, if_pos h1, Bool.false_eq_true, false_iff]
    rintro ⟨h2, -⟩
    omega
  by_cases h2 : n = 2
  · subst h2
    constructor
    · intro _
      refine ⟨by norm_num, ?_⟩
      intro d hd hd2 _
      rw [show ((2 : Int).toNat) = 2 from rfl, show intSqrt 2 = 1 from by decide] at hd2
      omega
    · intro _
      decide
  by_cases h3 : (n % 2 == 0) = true
  · have h2dvd : (2 : Int) ∣ n := Int.dvd_of_emod_eq_zero (by simpa using h3)
    have hn4 : 4 ≤ n := by
      rcases h2dvd with ⟨k, hk⟩
      omega
    simp only [isPrime, if_neg h1, if_neg h2, if_pos h3, Bool.false_eq_true, false_iff]
    rintro ⟨-, hall⟩
    refine hall 2 (by norm_num) ?_ h2dvd
    have h4n : 2 ≤ intSqrt n.toNat := by
      rw [intSqrt_eq_sqrt]
      refine Nat.le_sqrt.mpr ?_
      omega
    exact_mod_cast h4n
  · have hn3 : 3 ≤ n := by omega
    have hodd : n % 2 = 1 := by
      have h' : ¬ (n % 2 = 0) := by simpa using h3
      omega
    rw [isPrime_eq_not_any n h1 h2 h3]
    constructor
    · intro hall
      refine ⟨by omega, ?_⟩
      intro d hd hdle hdvd
      have hd0 : (0 : Int) ≤ d := by omega
      have hdm : ((d.toNat : Nat) : Int) = d := Int.toNat_of_nonneg hd0
      by_cases hmodd : d.toNat % 2 = 1
      · have hmem : d.toNat ∈ divisorList (intSqrt n.toNat) := by
          rw [mem_divisorList]
          refine ⟨by omega, by omega, hmodd⟩
        have hz : n % ((d.toNat : Nat) : Int) = 0 := by
          rw [hdm]
          exact Int.emod_eq_zero_of_dvd hdvd
        have hany : (divisorList (intSqrt n.toNat)).any (fun d => n % (d : Int) == 0) = true :=
          List.any_eq_true.mpr ⟨d.toNat, hmem, beq_iff_eq.mpr hz⟩
        rw [hany] at hall
        exact absurd hall (by decide)
      · have h2d : (2 : Int) ∣ d := by
          have h2m : 2 ∣ d.toNat := Nat.dvd_of_mod_eq_zero (by omega)
          have := Int.natCast_dvd_natCast.mpr h2m
          rwa [hdm] at this
        have h2n : (2 : Int) ∣ n := dvd_trans h2d hdvd
        have := Int.emod_eq_zero_of_dvd h2n
        omega
    · rintro ⟨-, hall⟩
      rw [Bool.not_eq_true']
      by_contra hne
      have hany : (divisorList (intSqrt n.toNat)).any (fun d => n % (d : Int) == 0) = true := by
        cases h : (divisorList (intSqrt n.toNat)).any (fun d => n % (d : Int) == 0) with
        | true => rfl
        | false => exact absurd h hne
      obtain ⟨m, hmem, hmz⟩ := List.any_eq_true.mp hany
      rw [mem_divisorList] at hmem
      refine hall (m : Int) (by exact_mod_cast (show 2 ≤ m from by omega)) ?_ ?_
      · exact_mod_cast hmem.2.1
      · exact Int.dvd_of_emod_eq_zero (by simpa using hmz)

theorem isPrime_natCast_iff (n : Nat) : isPrime (n : Int) = true ↔ n.Prime := by
  rw [isPrime_true_iff_forall, Nat.prime_def_le_sqrt]
  constructor
  · rintro ⟨h2, hall⟩
    refine ⟨by exact_mod_cast h2, ?_⟩
    intro m hm hmsqrt hdvd
    refine hall (m : Int) (by exact_mod_cast hm) ?_ (Int.natCast_dvd_natCast.mpr hdvd)
    rw [Int.toNat_natCast, intSqrt_eq_sqrt]
    exact_mod_cast hmsqrt
  · rintro ⟨h2, hall⟩
    refine ⟨by exact_mod_cast h2, ?_⟩
    intro d hd hdle hdvd
    have hd0 : (0 : Int) ≤ d := by omega
    have hmn : d.toNat ∣ n := by
      rw [← Int.natCast_dvd_natCast]
      push_cast [Int.toNat_of_nonneg hd0]
      exact hdvd
    refine hall d.toNat (by omega) ?_ hmn
    rw [Int.toNat_natCast, intSqrt_eq_sqrt] at hdle
    omega

/-! ## SimpleJSON (SimpleJSON.h): strings modelled as `List Char` -/

/-- Model of `std::string::find(pat)`: index of the first occurrence of
`pat`, `none` for `npos`. -/
def strFind (pat : List Char) : List Char → Option Nat
  | [] => if pat.isPrefixOf [] then some 0 else none
  | c :: t =>
    if pat.isPrefixOf (c :: t) then some 0
    else (strFind pat t).map (· + 1)

/-- Model of `std::string::find(pat, pos)`: first occurrence at index
`≥ pos`. -/
def findFrom (content pat : List Char) (pos : Nat) : Option Nat :=
  (strFind pat (content.drop pos)).map (· + pos)

/-- Index of the first character belonging to `set`. -/
def findCharIn (set : List Char) : List Char → Option Nat
  | [] => none
  | c :: t => if c ∈ set then some 0 else (findCharIn set t).map (· + 1)

/-- Model of `std::string::find_first_of(set, pos)`. -/
def findFirstOfFrom (content set : List Char) (pos : Nat) : Option Nat :=
  (findCharIn set (content.drop pos)).map (· + pos)

/-- Index of the first character not belonging to `set`
(`find_first_not_of`). -/
def findCharNotIn (set : List Char) : List Char → Option Nat
  | [] => none
  | c :: t => if c ∈ set then (findCharNotIn set t).map (· + 1) else some 0

/-- Model of `std::string::find_last_not_of(set)`. -/
def findLastNotIn (set s : List Char) : Option Nat :=
  (findCharNotIn set s.reverse).map (fun i => s.length - 1 - i)

/-- The character set `" \t\n\r\""` of `SimpleJSON::trim`. -/
def wsQuote : List Char := [' ', '\t', '\n', '\r', '\"']

/-- The character set `" \t\n\r\","` of `SimpleJSON::trim`. -/
def wsQuoteComma : List Char := [' ', '\t', '\n', '\r', '\"', ',']

/-- Character class used by `std::stoi` to skip leading whitespace. -/
def isSpaceChar (c : Char) : Bool := c ∈ [' ', '\t', '\n', '\r', '\x0b', '\x0c']

/-- Decimal digit test. -/
def isDigitChar (c : Char) : Bool := decide ('0' ≤ c ∧ c ≤ '9')

/-- Numeric value of a decimal digit character. -/
def digitVal (c : Char) : Nat := c.toNat - '0'.toNat

/-- Value of a digit string. -/
def digitsVal (ds : List Char) : Nat := ds.foldl (fun acc c => acc * 10 + digitVal c) 0

/-- Model of `std::stoi`: skip leading whitespace, optional sign, then the
longest digit prefix; `none` models the `std::invalid_argument` exception
thrown when no digits are found (overflow is not modelled: no claim parses
an out-of-range value). -/
def stoi (s : List Char) : Option Int :=
  match s.dropWhile isSpaceChar with
  | '-' :: rest =>
    if (rest.takeWhile isDigitChar).isEmpty then none
    else some (-(digitsVal (rest.takeWhile isDigitChar) : Int))
  | '+' :: rest =>
    if (rest.takeWhile isDigitChar).isEmpty then none
    else some ((digitsVal (rest.takeWhile isDigitChar) : Int))
  | other =>
    if (other.takeWhile isDigitChar).isEmpty then none
    else some ((digitsVal (other.takeWhile isDigitChar) : Int))

/-- The pattern `"\"" + key + "\""` that `getInt`/`getString` search for. -/
def quoteKey (key : List Char) : List Char := '\"' :: key ++ ['\"']

namespace SimpleJSON

/-- Model of `SimpleJSON::trim`.  When `find_last_not_of` returns `npos`
the C++ count `last - first + 1` wraps: it is `0` when `first = 0` (empty
result) and huge otherwise (`substr` then clamps to the rest of the
string). -/
def trim (str : List Char) : List Char :=
  match findCharNotIn wsQuote str with
  | none => []
  | some first =>
    match findLastNotIn wsQuoteComma str with
    | some last => (str.drop first).take (last - first + 1)
    | none => if first = 0 then [] else str.drop first

/-- Model of `SimpleJSON::getInt`.  Returns `some 0` when the quoted key
does not occur; `none` models the erroneous paths (a key with no `:` after
it, or a `std::stoi` exception).  When `find_first_of(",}")` returns `npos`
the C++ `substr` count clamps to the end of the string. -/
def getInt (content key : List Char) : Option Int :=
  match strFind (quoteKey key) content with
  | none => some 0
  | some pos =>
    match findFrom content [':'] pos with
    | none => none
    | some cpos =>
      let stop :=
        match findFirstOfFrom content [',', '\x7d'] cpos with
        | some e => e
        | none => content.length
      stoi (trim ((content.drop (cpos + 1)).take (stop - (cpos + 1))))

/-- Model of `SimpleJSON::getString`.  Returns `some []` when the quoted
key does not occur; `none` models the erroneous paths (no `:` or no opening
quote after the key). -/
def getString (content key : List Char) : Option (List Char) :=
  match strFind (quoteKey key) content with
  | none => some []
  | some pos =>
    match findFrom content [':'] pos with
    | none => none
    | some cpos =>
      match findFrom content ['\"'] cpos with
      | none => none
      | some sq =>
        let stop :=
          match findFrom content ['\"'] (sq + 1) with
          | some e => e
          | none => content.length
        some ((content.drop (sq + 1)).take (stop - (sq + 1)))

end SimpleJSON

/-- The key `"num_threads"` as a character list. -/
def numThreadsKey : List Char := ['n', 'u', 'm', '_', 't', 'h', 'r', 'e', 'a', 'd', 's']

/-- Model of `cfg.num_threads = SimpleJSON::getInt(content, "num_threads")`
inside `PrimeFinder::loadConfig`. -/
def loadConfigNumThreads (content : List Char) : Option Int :=
  SimpleJSON.getInt content numThreadsKey

theorem isPrefixOf_iff_exists (p : List Char) :
    ∀ l, p.isPrefixOf l = true ↔ ∃ t, p ++ t = l := by
  induction p with
  | nil => intro l; simp [List.isPrefixOf]
  | cons a as ih =>
    intro l
    cases l with
    | nil => simp [List.isPrefixOf]
    | cons b bs =>
      simp only [List.isPrefixOf, Bool.and_eq_true, beq_iff_eq]
      rw [ih bs]
      constructor
      · rintro ⟨rfl, t, rfl⟩
        exact ⟨t, rfl⟩
      · rintro ⟨t, h⟩
        rw [List.cons_append] at h
        injection h with h1 h2
        exact ⟨h1, t, h2⟩

theorem strFind_eq_none_iff (pat : List Char) :
    ∀ hay, strFind pat hay = none ↔ ¬ pat <:+: hay := by
  intro hay
  induction hay with
  | nil =>
    simp only [strFind]
    by_cases hp : pat.isPrefixOf ([] : List Char) = true
    · obtain ⟨u, hu⟩ := (isPrefixOf_iff_exists pat []).mp hp
      have hpat : pat = [] := by
        cases pat with
        | nil => rfl
        | cons a as => exact absurd hu (by simp)
      subst hpat
      rw [if_pos hp]
      exact iff_of_false (by simp) (fun h => h ⟨[], [], rfl⟩)
    · rw [if_neg hp]
      refine iff_of_true rfl ?_
      rintro ⟨s, u, hsu⟩
      rw [List.append_assoc] at hsu
      obtain ⟨hs, hpu⟩ := List.append_eq_nil.mp hsu
      obtain ⟨hpat, hu⟩ := List.append_eq_nil.mp hpu
      exact hp ((isPrefixOf_iff_exists pat []).mpr ⟨[], by simp [hpat]⟩)
  | cons c t ih =>
    simp only [strFind]
    by_cases hp : pat.isPrefixOf (c :: t) = true
    · rw [if_pos hp]
      obtain ⟨u, hu⟩ := (isPrefixOf_iff_exists pat (c :: t)).mp hp
      exact iff_of_false (by simp) (fun h => h ⟨[], u, by simpa using hu⟩)
    · rw [if_neg hp, Option.map_eq_none', ih]
      constructor
      · intro hnt hinf
        rcases hinf with ⟨s, u, hsu⟩
        cases s with
        | nil =>
          exact hp ((isPrefixOf_iff_exists pat (c :: t)).mpr ⟨u, by simpa using hsu⟩)
        | cons a s' =>
          refine hnt ⟨s', u, ?_⟩
          have h' : a :: (s' ++ pat ++ u) = c :: t := by simpa using hsu
          exact (List.cons_eq_cons.mp h').2
      · intro hnc hinf
        rcases hinf with ⟨s, u, hsu⟩
        exact hnc ⟨c :: s, u, by simp [hsu]⟩

/-! ## Claim theorems -/

/-- C1: for every configuration with `upperBound ≥ 1` and `workerCount ≥ 1`,
the final PrimeSet after the join and sorting (the sorted concatenation of
the per-worker results computed with the sequential oracle) contains every
prime in `[1, upperBound]` exactly once, and contains no composite number
and no number below 2. -/
theorem primeSearch_complete_and_sound (N W : Nat) (hN : 1 ≤ N) (hW : 1 ≤ W) :
    (∀ p : Nat, p.Prime → p ≤ N → (sortedPrimes N W).count p = 1) ∧
    (∀ m : Nat, m ∈ sortedPrimes N W → 2 ≤ m ∧ m ≤ N ∧ m.Prime) := by
  have hperm : List.Perm (sortedPrimes N W) (collectedPrimes N W) :=
    List.perm_insertionSort _ _
  constructor
  · intro p hp hpN
    rw [hperm.count_eq, collectedPrimes_eq N W hW]
    refine List.count_eq_one_of_mem ((rangeList_nodup 1 N).filter _) ?_
    rw [List.mem_filter]
    refine ⟨(mem_rangeList 1 N p).mpr ⟨?_, hpN⟩, (isPrime_natCast_iff p).mpr hp⟩
    have := hp.two_le
    omega
  · intro m hm
    rw [hperm.mem_iff, collectedPrimes_eq N W hW, List.mem_filter] at hm
    obtain ⟨hr, hpr⟩ := hm
    have hprime := (isPrime_natCast_iff m).mp hpr
    have hrange := (mem_rangeList 1 N m).mp hr
    exact ⟨hprime.two_le, hrange.2, hprime⟩

theorem primeSearch_complete_and_sound_witness : (sortedPrimes 30 4).count 7 = 1 :=
  (primeSearch_complete_and_sound 30 4 (by norm_num) (by norm_num)).1 7
    (by norm_num) (by norm_num)

/-- C2: for every `n` in `[1, 10000]` and every `workerCount ≥ 1`, the
sequential oracle and the parallel-divisor oracle return the same boolean. -/
theorem oracles_agree (n : Int) (W : Nat) (h1 : 1 ≤ n) (h2 : n ≤ 10000) (hW : 1 ≤ W) :
    isPrimeParallel W n = isPrime n :=
  isPrimeParallel_eq_isPrime W n hW

theorem oracles_agree_witness : isPrimeParallel 3 49 = isPrime 49 :=
  oracles_agree 49 3 (by norm_num) (by norm_num) (by norm_num)

/-- C3: for every `upperBound ≥ 1` and `workerCount ≥ 1`, the sub-ranges of
the partitioning rule are pairwise disjoint and their union is exactly
`[1, upperBound]`: every integer of `[1, upperBound]` occurs exactly once
across all sub-ranges and nothing else occurs, including the degenerate
case `upperBound < workerCount` (empty sub-ranges). -/
theorem partition_exact_cover (N W : Nat) (hN : 1 ≤ N) (hW : 1 ≤ W) (m : Nat) :
    (subRangeElems N W).count m = if 1 ≤ m ∧ m ≤ N then 1 else 0 := by
  rw [subRangeElems_eq N W hW]
  by_cases h : 1 ≤ m ∧ m ≤ N
  · rw [if_pos h]
    exact List.count_eq_one_of_mem (rangeList_nodup 1 N) ((mem_rangeList 1 N m).mpr h)
  · rw [if_neg h]
    exact List.count_eq_zero_of_not_mem (fun hc => h ((mem_rangeList 1 N m).mp hc))

theorem partition_exact_cover_witness : (subRangeElems 1 4).count 1 = 1 := by
  have h := partition_exact_cover 1 4 (by norm_num) (by norm_num) 1
  simpa using h

/-- C4: `isPrime n` is true iff `n ≥ 2` and `n` has no divisor in
`[2, floor(sqrt n)]`; in particular it is false for `n < 2`, true for
`n = 2`, false for even `n > 2`, and for odd `n > 2` the result is
determined by exactly the odd candidates `3, 5, ...` up to `floor(sqrt n)`. -/
theorem isPrime_spec (n : Int) :
    (isPrime n = true
       ↔ 2 ≤ n ∧ ∀ d : Int, 2 ≤ d → d ≤ (intSqrt n.toNat : Int) → ¬ d ∣ n) ∧
    (n < 2 → isPrime n = false) ∧
    isPrime 2 = true ∧
    (2 < n → n % 2 = 0 → isPrime n = false) ∧
    (2 < n → n % 2 ≠ 0 →
      isPrime n = !((divisorList (intSqrt n.toNat)).any (fun d => n % (d : Int) == 0))) ∧
    (∀ d : Nat, d ∈ divisorList (intSqrt n.toNat)
       ↔ 3 ≤ d ∧ d ≤ intSqrt n.toNat ∧ d % 2 = 1) := by
  refine ⟨isPrime_true_iff_forall n, ?_, by decide, ?_, ?_,
    fun d => mem_divisorList (intSqrt n.toNat) d⟩
  · intro h
    simp [isPrime, h]
  · intro h2 hmod
    unfold isPrime
    rw [if_neg (by omega), if_neg (by omega), if_pos (beq_iff_eq.mpr hmod)]
  · intro h2 hmod
    exact isPrime_eq_not_any n (by omega) (by omega)
      (by rw [beq_iff_eq]; exact hmod)

theorem isPrime_spec_witness : isPrime 10 = false ∧ isPrime 1 = false :=
  ⟨(isPrime_spec 10).2.2.2.1 (by norm_num) (by norm_num),
   (isPrime_spec 1).2.1 (by norm_num)⟩

/-- C5: for every odd `n ≥ 3` and `workerCount ≥ 1`, the chunking rule of
the parallel-divisor oracle assigns every candidate odd divisor in
`[3, floor(sqrt n)]` to exactly one chunk: across all chunks each candidate
occurs exactly once (nothing dropped, nothing duplicated). -/
theorem chunking_assigns_each_divisor_once (n : Int) (W : Nat)
    (hW : 1 ≤ W) (h3 : 3 ≤ n) (hodd : n % 2 = 1)
    (d : Nat) (hd : d ∈ divisorList (intSqrt n.toNat)) :
    ((buildChunks (divisorList (intSqrt n.toNat))
        (max 1 ((divisorList (intSqrt n.toNat)).length / W)) W 0 W).flatten).count d
      = 1 := by
  rw [flatten_buildChunks_full _ _ _ hW]
  exact List.count_eq_one_of_mem (divisorList_nodup _) hd

theorem chunking_assigns_each_divisor_once_witness :
    ((buildChunks (divisorList (intSqrt (49 : Int).toNat))
        (max 1 ((divisorList (intSqrt (49 : Int).toNat)).length / 3)) 3 0 3).flatten).count 5
      = 1 :=
  chunking_assigns_each_divisor_once 49 3 (by norm_num) (by norm_num) (by norm_num)
    5 (by decide)

theorem buildChunks_nil (cs W : Nat) :
    ∀ (fuel i : Nat), buildChunks [] cs W i fuel = [] := by
  intro fuel i
  cases fuel with
  | zero => rfl
  | succ fuel =>
    simp only [buildChunks, List.length_nil]
    by_cases h : i < W
    · rw [if_pos h, if_neg (by omega)]
    · rw [if_neg h]

theorem isPrimeParallel_oddBranch (W : Nat) (n : Int)
    (h1 : ¬ n < 2) (h2 : n ≠ 2) (h3 : ¬ (n % 2 == 0) = true) :
    isPrimeParallel W n
      = (if (divisorList (intSqrt n.toNat)).isEmpty then true
         else !((buildChunks (divisorList (intSqrt n.toNat))
                  (max 1 ((divisorList (intSqrt n.toNat)).length / W)) W 0 W).foldl
                  (fun flag chunk => checkDivisibility n chunk flag) false)) := by
  unfold isPrimeParallel
  rw [if_neg h1, if_neg h2, if_neg h3]

/-- C6: within one parallel primality test the shared composite flag starts
`false` and is only ever written to `true` (a helper that writes at all
writes `true`, a helper whose chunk contains no divisor leaves the flag
unchanged, a flag already `true` stays `true`); after all helpers finish the
fold of the helpers over the initial `false` flag equals "some chunk
contains a divisor", and the oracle returns its negation: `true` exactly
when no helper's chunk contained a divisor. -/
theorem composite_flag_spec (n : Int) (W : Nat) :
    (∀ chunk : List Nat, checkDivisibility n chunk true = true) ∧
    (∀ (chunk : List Nat) (flag : Bool),
        (∀ d ∈ chunk, ¬ n % (d : Int) = 0) → checkDivisibility n chunk flag = flag) ∧
    (∀ chs : List (List Nat),
        chs.foldl (fun flag chunk => checkDivisibility n chunk flag) false
          = chs.any (fun ch => ch.any (fun d => n % (d : Int) == 0))) ∧
    (1 ≤ W → 3 ≤ n → n % 2 = 1 →
      (isPrimeParallel W n = true ↔
        ∀ ch ∈ buildChunks (divisorList (intSqrt n.toNat))
            (max 1 ((divisorList (intSqrt n.toNat)).length / W)) W 0 W,
          ∀ d ∈ ch, ¬ n % (d : Int) = 0)) := by
  refine ⟨?_, ?_, ?_, ?_⟩
  · intro chunk
    rw [checkDivisibility_eq]
    simp
  · intro chunk flag hnone
    rw [checkDivisibility_eq]
    have hany : chunk.any (fun d => n % (d : Int) == 0) = false := by
      cases h : chunk.any (fun d => n % (d : Int) == 0) with
      | false => rfl
      | true =>
        obtain ⟨d, hd, hz⟩ := List.any_eq_true.mp h
        exact absurd (beq_iff_eq.mp hz) (hnone d hd)
    rw [hany]
    simp
  · intro chs
    rw [foldl_checkDivisibility]
    simp
  · intro hW h3 hodd
    have h1 : ¬ n < 2 := by omega
    have h2 : n ≠ 2 := by omega
    have h3' : ¬ (n % 2 == 0) = true := by
      rw [beq_iff_eq]
      omega
    rw [isPrimeParallel_oddBranch W n h1 h2 h3']
    by_cases hemp : (divisorList (intSqrt n.toNat)).isEmpty
    · rw [if_pos hemp]
      have hnil : divisorList (intSqrt n.toNat) = [] := List.isEmpty_iff.mp hemp
      refine iff_of_true rfl ?_
      intro ch hch
      rw [hnil, buildChunks_nil] at hch
      exact absurd hch (List.not_mem_nil ch)
    · rw [if_neg hemp, foldl_checkDivisibility]
      simp only [Bool.false_or, Bool.not_eq_true']
      constructor
      · intro hfalse ch hch d hd hdz
        have : (buildChunks (divisorList (intSqrt n.toNat))
            (max 1 ((divisorList (intSqrt n.toNat)).length / W)) W 0 W).any
              (fun ch => ch.any (fun d => n % (d : Int) == 0)) = true :=
          List.any_eq_true.mpr ⟨ch, hch, List.any_eq_true.mpr ⟨d, hd, beq_iff_eq.mpr hdz⟩⟩
        rw [this] at hfalse
        cases hfalse
      · intro hall
        cases hany : (buildChunks (divisorList (intSqrt n.toNat))
            (max 1 ((divisorList (intSqrt n.toNat)).length / W)) W 0 W).any
              (fun ch => ch.any (fun d => n % (d : Int) == 0)) with
        | false => rfl
        | true =>
          obtain ⟨ch, hch, hin⟩ := List.any_eq_true.mp hany
          obtain ⟨d, hd, hz⟩ := List.any_eq_true.mp hin
          exact absurd (beq_iff_eq.mp hz) (hall ch hch d hd)

theorem composite_flag_spec_witness :
    isPrimeParallel 3 49 = true ↔
      ∀ ch ∈ buildChunks (divisorList (intSqrt (49 : Int).toNat))
          (max 1 ((divisorList (intSqrt (49 : Int).toNat)).length / 3)) 3 0 3,
        ∀ d ∈ ch, ¬ (49 : Int) % (d : Int) = 0 :=
  (composite_flag_spec 49 3).2.2.2 (by norm_num) (by norm_num) (by norm_num)

/-- C7 evaluation: `PrimeFinder::run` contains no precondition check.  With
any `num_threads ≤ 0` the dispatch loop body never executes, so no worker is
launched and no rejection happens; evaluated at the concrete invalid
configuration `max_number = 5`, `num_threads = -1` the run dispatches
nothing and falls through to a normal empty summary (count 0, no primes, no
ellipsis) instead of failing a precondition.  (`num_threads = 0` would
additionally evaluate `max_number / 0`, undefined behaviour in C++.) -/
theorem run_completes_on_invalid_config :
    (∀ maxNumber numThreads : Int, numThreads ≤ 0 →
        dispatchRanges maxNumber numThreads = []) ∧
    dispatchRanges 5 (-1) = [] ∧
    summaryOf [] = { count := 0, shown := [], shownText := "", ellipsis := false } := by
  refine ⟨?_, by decide, rfl⟩
  intro mN nT h
  unfold dispatchRanges
  rw [show nT.toNat = 0 from by omega]
  rfl

theorem run_completes_on_invalid_config_witness : dispatchRanges 7 (-2) = [] :=
  run_completes_on_invalid_config.1 7 (-2) (by norm_num)

/-- C8: in wait (Deferred) mode no per-prime line is emitted during the
parallel phase, and after the join barrier the emitted lines are exactly one
`Prime: <n>` line per element of the ascending-sorted PrimeSet, so every
discovered prime is emitted exactly once, in ascending order. -/
theorem deferred_mode_spec (N W : Nat) (hN : 1 ≤ N) (hW : 1 ≤ W) :
    (∀ threadId s e : Nat, searchRangeLines "wait" threadId s e = []) ∧
    (runModel "wait" N W).phase1 = [] ∧
    deferredLines "wait" N W = (sortedPrimes N W).map OutLine.deferredPrime ∧
    List.Sorted (· ≤ ·) (sortedPrimes N W) ∧
    (∀ p : Nat, p ∈ collectedPrimes N W →
        (deferredLines "wait" N W).count (OutLine.deferredPrime p) = 1) ∧
    (∀ p : Nat, renderDeferredLine p = "Prime: " ++ toString p) := by
  have hmode1 : (("wait" : String) == "immediate") = false := by decide
  have hmode2 : (("wait" : String) == "wait") = true := by decide
  have hdef : deferredLines "wait" N W = (sortedPrimes N W).map OutLine.deferredPrime := by
    unfold deferredLines
    rw [if_pos hmode2]
  refine ⟨?_, ?_, hdef, ?_, ?_, fun p => rfl⟩
  · intro threadId s e
    unfold searchRangeLines
    rw [if_neg (by rw [hmode1]; exact Bool.false_ne_true)]
  · unfold runModel
    simp only [searchRangeLines]
    rw [show (("wait" : String) == "immediate") = false from hmode1]
    simp
  · exact List.sorted_insertionSort _ _
  · intro p hp
    rw [hdef,
        List.count_map_of_injective _ OutLine.deferredPrime
          (fun a b h => OutLine.deferredPrime.inj h) p]
    have hperm : List.Perm (sortedPrimes N W) (collectedPrimes N W) :=
      List.perm_insertionSort _ _
    rw [hperm.count_eq]
    exact List.count_eq_one_of_mem (collectedPrimes_nodup N W hW) hp

theorem deferred_mode_spec_witness :
    deferredLines "wait" 10 3 = (sortedPrimes 10 3).map OutLine.deferredPrime :=
  (deferred_mode_spec 10 3 (by norm_num) (by norm_num)).2.2.1

/-- C9: in every run and in both print modes the final summary reports the
total count of discovered primes, lists the first `min(20, count)` primes in
ascending order (comma-joined), and carries the ellipsis marker iff more
than 20 primes were found. -/
theorem summary_spec (mode : String) (N W : Nat) (hN : 1 ≤ N) (hW : 1 ≤ W) :
    (runModel mode N W).summary.count = (collectedPrimes N W).length ∧
    (runModel mode N W).summary.shown
        = (sortedPrimes N W).take (min 20 (collectedPrimes N W).length) ∧
    List.Sorted (· ≤ ·) (runModel mode N W).summary.shown ∧
    (runModel mode N W).summary.shown.length = min 20 (collectedPrimes N W).length ∧
    (runModel mode N W).summary.shownText
        = String.intercalate ", " ((runModel mode N W).summary.shown.map toString) ∧
    ((runModel mode N W).summary.ellipsis = true ↔ 20 < (collectedPrimes N W).length) := by
  have hlen : (sortedPrimes N W).length = (collectedPrimes N W).length :=
    (List.perm_insertionSort (· ≤ ·) (collectedPrimes N W)).length_eq
  have hshown : (runModel mode N W).summary.shown
      = (sortedPrimes N W).take (min 20 (collectedPrimes N W).length) := by
    show (sortedPrimes N W).take (min 20 (sortedPrimes N W).length)
        = (sortedPrimes N W).take (min 20 (collectedPrimes N W).length)
    rw [hlen]
  refine ⟨rfl, hshown, ?_, ?_, rfl, ?_⟩
  · rw [hshown]
    exact List.Pairwise.sublist (List.take_sublist _ _)
      (List.sorted_insertionSort (· ≤ ·) (collectedPrimes N W))
  · rw [hshown, List.length_take, hlen]
    omega
  · show decide ((collectedPrimes N W).length > 20) = true ↔ 20 < (collectedPrimes N W).length
    rw [decide_eq_true_eq]

theorem summary_spec_witness :
    (runModel "wait" 30 4).summary.ellipsis = true ↔ 20 < (collectedPrimes 30 4).length :=
  (summary_spec "wait" 30 4 (by norm_num) (by norm_num)).2.2.2.2.2

/-- C10: whenever the quoted key does not occur in the content,
`SimpleJSON::getInt` returns 0 and `SimpleJSON::getString` returns the
empty string instead of signalling an error; consequently a configuration
file missing the `num_threads` key loads `num_threads = 0`. -/
theorem simpleJSON_missing_key_defaults (content key : List Char)
    (h : ¬ quoteKey key <:+: content) :
    SimpleJSON.getInt content key = some 0 ∧
    SimpleJSON.getString content key = some [] ∧
    (key = numThreadsKey → loadConfigNumThreads content = some 0) := by
  have hf : strFind (quoteKey key) content = none := (strFind_eq_none_iff _ _).mpr h
  refine ⟨?_, ?_, ?_⟩
  · unfold SimpleJSON.getInt
    rw [hf]
  · unfold SimpleJSON.getString
    rw [hf]
  · intro hk
    subst hk
    unfold loadConfigNumThreads SimpleJSON.getInt
    rw [hf]

theorem simpleJSON_missing_key_defaults_witness :
    SimpleJSON.getInt ['\x7b', '\x7d'] numThreadsKey = some 0 :=
  (simpleJSON_missing_key_defaults ['\x7b', '\x7d'] numThreadsKey
    ((strFind_eq_none_iff (quoteKey numThreadsKey) ['\x7b', '\x7d']).mp (by decide))).1
